import Mathlib

/-!
Shallow embedding of the interleaved-access grouping engine of
`llvm/include/llvm/Analysis/VectorUtils.h` and of the loop-splitting driver of
`llvm/lib/Transforms/Scalar/LoopOptTutorial.cpp`.

Machine integers are modelled as `Int`/`Nat` with explicit two's-complement
range checks: `int32_t` values live in `[int32Min, int32Max]`, `uint32_t`
values are `Nat` below `2^32`.  `llvm::checkedAdd`/`llvm::checkedSub` return
`none` exactly when the mathematical result leaves the `int32_t` range.
The `DenseMap<int32_t, InstTy *> Members` field is modelled as an association
list with pairwise-distinct keys, instructions as an abstract type `α` with
decidable equality.
-/

namespace VecUtils

def int32Min : Int := -2147483648

def int32Max : Int := 2147483647

/-- Model of `llvm::checkedAdd` on `int32_t`: the sum, unless it overflows. -/
def checkedAdd (a b : Int) : Option Int :=
  if int32Min ≤ a + b ∧ a + b ≤ int32Max then some (a + b) else none

/-- Model of `llvm::checkedSub` on `int32_t`: the difference, unless it
overflows. -/
def checkedSub (a b : Int) : Option Int :=
  if int32Min ≤ a - b ∧ a - b ≤ int32Max then some (a - b) else none

/-- Model of `static_cast<int32_t>` applied to a `uint32_t` value: wraps
values at or above `2^31` into the negative range. -/
def uToInt32 (n : Nat) : Int :=
  if n < 2147483648 then (n : Int) else (n : Int) - 4294967296

/-- Two's-complement wrap of a mathematical integer into the `int32_t`
range, as performed by C++ integer conversions in `int32_t Key =
SmallestKey + Index`. -/
def wrap32 (z : Int) : Int :=
  (z + 2147483648) % 4294967296 - 2147483648

/-- Lookup by key in an association list modelling
`DenseMap<int32_t, InstTy *>::find`. -/
def lookupKey {α : Type} (l : List (Int × α)) (k : Int) : Option α :=
  match l with
  | [] => none
  | p :: rest => if p.1 = k then some p.2 else lookupKey rest k

/-- First key holding a given value, modelling the `for (auto I : Members)`
scan of `InterleaveGroup::getIndex`. -/
def lookupVal {α : Type} [DecidableEq α] (l : List (Int × α)) (a : α) : Option Int :=
  match l with
  | [] => none
  | p :: rest => if p.2 = a then some p.1 else lookupVal rest a

/-- Model of `llvm::InterleaveGroup<InstTy>` (VectorUtils.h, lines 382-518):
interleave factor, reverse flag, alignment, the key-to-member map and the
tracked smallest/largest keys.  The `InsertPos` pointer plays no role in the
claims under study and is omitted. -/
structure InterleaveGroup (α : Type) where
  Factor : Nat
  Reverse : Bool
  Align : Nat
  Members : List (Int × α)
  SmallestKey : Int
  LargestKey : Int

namespace InterleaveGroup

/-- Model of the leader constructor `InterleaveGroup(InstTy *Instr, int32_t
Stride, uint32_t Align)`: `Factor = |Stride|`, `Reverse = Stride < 0`,
`Members[0] = Instr`, keys initialised to `0`. -/
def mkLeaderGroup {α : Type} (Instr : α) (Stride : Int) (Align : Nat) :
    InterleaveGroup α :=
  { Factor := Stride.natAbs
    Reverse := decide (Stride < 0)
    Align := Align
    Members := [(0, Instr)]
    SmallestKey := 0
    LargestKey := 0 }

/-- Model of `InterleaveGroup::insertMember(InstTy *Instr, int32_t Index,
uint32_t NewAlign)`.  The C++ method mutates `this` and returns `bool`; every
`return false` happens before any mutation, so it is embedded as a function
returning the (possibly unchanged) group together with the boolean result.
The successful branches update `LargestKey`/`SmallestKey`, take the minimum
alignment and record the member, exactly as the source does. -/
def insertMember {α : Type} [DecidableEq α] (g : InterleaveGroup α) (Instr : α)
    (Index : Int) (NewAlign : Nat) : InterleaveGroup α × Bool :=
  match checkedAdd Index g.SmallestKey with
  | none => (g, false)
  | some Key =>
    if (lookupKey g.Members Key).isSome then (g, false)
    else if g.LargestKey < Key then
      if uToInt32 g.Factor ≤ Index then (g, false)
      else ({ g with LargestKey := Key
                     Align := min g.Align NewAlign
                     Members := g.Members ++ [(Key, Instr)] }, true)
    else if Key < g.SmallestKey then
      match checkedSub g.LargestKey Key with
      | none => (g, false)
      | some MaybeLargestIndex =>
        if (g.Factor : Int) ≤ MaybeLargestIndex then (g, false)
        else ({ g with SmallestKey := Key
                       Align := min g.Align NewAlign
                       Members := g.Members ++ [(Key, Instr)] }, true)
    else ({ g with Align := min g.Align NewAlign
                   Members := g.Members ++ [(Key, Instr)] }, true)

/-- Model of `InterleaveGroup::getMember(uint32_t Index)`: looks up the key
`SmallestKey + Index`, which the C++ computes in wrapping 32-bit
arithmetic. -/
def getMember {α : Type} (g : InterleaveGroup α) (Index : Nat) : Option α :=
  lookupKey g.Members (wrap32 (g.SmallestKey + Index))

/-- Model of `InterleaveGroup::getIndex(const InstTy *Instr)`: scan the
member map for the instruction and return its key minus `SmallestKey`; the
C++ reaches `llvm_unreachable` when the scan fails, modelled as `none`. -/
def getIndex {α : Type} [DecidableEq α] (g : InterleaveGroup α) (Instr : α) :
    Option Int :=
  (lookupVal g.Members Instr).map (fun k => k - g.SmallestKey)

/-- Model of `InterleaveGroup::requiresScalarEpilogue()`: true iff the member
at index `Factor - 1` is absent.  The two `assert`s on the gap case (members
may not write, group not reversed) are release-mode no-ops and appear as
preconditions of the corresponding theorem. -/
def requiresScalarEpilogue {α : Type} (g : InterleaveGroup α) : Bool :=
  (getMember g (g.Factor - 1)).isNone

/-- Invariant satisfied by every group built by the leader constructor and
grown through successful `insertMember` calls: ordered tracked keys whose
distance stays below the factor, member keys inside the tracked range and
pairwise distinct, tracked keys inside the `int32_t` range, a member at
`SmallestKey`, and a factor in `(1, 2^31]` (it is `|Stride|` of an
`int32_t`). -/
def WF {α : Type} (g : InterleaveGroup α) : Prop :=
  g.SmallestKey ≤ g.LargestKey ∧
  g.LargestKey - g.SmallestKey < (g.Factor : Int) ∧
  (∀ p ∈ g.Members, g.SmallestKey ≤ p.1 ∧ p.1 ≤ g.LargestKey) ∧
  (g.Members.map Prod.fst).Nodup ∧
  int32Min ≤ g.SmallestKey ∧
  g.LargestKey ≤ int32Max ∧
  (∃ p ∈ g.Members, p.1 = g.SmallestKey) ∧
  1 < g.Factor ∧
  g.Factor ≤ 2147483648

instance {α : Type} [DecidableEq α] (g : InterleaveGroup α) :
    Decidable (WF g) := by
  unfold WF
  infer_instance

/-- Groups reachable through the public construction interface: the leader
constructor applied to a nonzero `int32_t` stride of magnitude above one
(asserted by the constructor), followed by any sequence of `insertMember`
calls, keeping only the successful results. -/
inductive Reachable {α : Type} [DecidableEq α] : InterleaveGroup α → Prop
  | leader (Instr : α) (Stride : Int) (Align : Nat)
      (hfac : 1 < Stride.natAbs)
      (hlo : int32Min ≤ Stride) (hhi : Stride ≤ int32Max) :
      Reachable (mkLeaderGroup Instr Stride Align)
  | insert (g : InterleaveGroup α) (Instr : α) (Index : Int) (NewAlign : Nat)
      (hg : Reachable g)
      (hok : (insertMember g Instr Index NewAlign).2 = true) :
      Reachable (insertMember g Instr Index NewAlign).1

end InterleaveGroup

/-- Modelled from the spec: `InterleavedAccessInfo::isStrided` is declared in
VectorUtils.h but its body lies outside the excerpt.  The spec admits only
accesses whose stride magnitude is above one (magnitude 1 is not strided for
grouping purposes). -/
def isStrided (Stride : Int) : Bool :=
  decide (1 < Stride.natAbs)

/-- Model of `InterleavedAccessInfo::StrideDescriptor` (VectorUtils.h, lines
615-632): stride, size and alignment of a strided access; the `Scev` pointer
is opaque to the claims and omitted. -/
structure StrideDescriptor where
  Stride : Int
  Size : Nat
  Align : Nat

/-- The state of `InterleavedAccessInfo` relevant to the reordering legality
check: whether `areDependencesValid()` holds, the `Dependences` cache mapping
a source access to its known dependent sinks, and the
`Instruction::mayWriteToMemory` predicate on accesses (modelled as an
abstract identifier type `β`). -/
structure InterleavedAccessInfo (β : Type) where
  depsValid : Bool
  Dependences : List (β × List β)
  mayWrite : β → Bool

/-- Lookup in the `Dependences` cache, modelling `DenseMap::find`. -/
def lookupDep {β : Type} [DecidableEq β] (l : List (β × List β)) (k : β) :
    Option (List β) :=
  match l with
  | [] => none
  | p :: rest => if p.1 = k then some p.2 else lookupDep rest k

/-- Model of
`InterleavedAccessInfo::canReorderMemAccessesForInterleavedGroups`
(VectorUtils.h, lines 684-726).  `A` precedes `B` in program order; `A.1` is
the source instruction, `A.2` its stride descriptor, likewise for the sink
`B`.  Mirrors the four steps of the source: read-only source, all-unstrided
pair, unavailable dependence information, and the cached-dependence query
`Dependences.find(Src) == Dependences.end() ||
!Dependences.lookup(Src).count(Sink)`. -/
def canReorderMemAccessesForInterleavedGroups {β : Type} [DecidableEq β]
    (M : InterleavedAccessInfo β) (A B : β × StrideDescriptor) : Bool :=
  if !(M.mayWrite A.1) then true
  else if !(isStrided A.2.Stride) && !(isStrided B.2.Stride) then true
  else if !M.depsValid then false
  else (lookupDep M.Dependences A.1).isNone
    || !(decide (B.1 ∈ (lookupDep M.Dependences A.1).getD []))

/-- Modelled from the spec: `createBitMaskForGaps` is declared in
VectorUtils.h (lines 261-273) with its body outside the excerpt; its header
documentation and the spec describe a 0/1 mask of length `Factor * VF` whose
position `slot + Factor * lane` flags whether the group has a member at
`slot`. -/
def createBitMaskForGaps {α : Type} (g : InterleaveGroup α) (VF : Nat) :
    List Bool :=
  (List.range VF).flatMap (fun _lane =>
    (List.range g.Factor).map
      (fun slot => (InterleaveGroup.getMember g slot).isSome))

/-- Modelled from the spec: `createInterleaveMask` is declared in
VectorUtils.h (lines 290-302) with its body outside the excerpt; its header
documentation gives the mask `<0, VF, VF * 2, ..., 1, VF + 1, ...>`
interleaving `NumVecs` vectors of width `VF`. -/
def createInterleaveMask (VF NumVecs : Nat) : List Nat :=
  (List.range VF).flatMap (fun i =>
    (List.range NumVecs).map (fun j => j * VF + i))

/-- Concrete group with members exactly at slots 0 and 3 of factor 4: the
leader constructor at stride 4 followed by a successful `insertMember` at
relative index 3. -/
def gapExampleGroup : InterleaveGroup Nat :=
  (InterleaveGroup.insertMember (InterleaveGroup.mkLeaderGroup 0 4 1) 1 3 1).1

/-- Concrete analysis state in which dependence information has been computed
and is valid, the cache holds an entry only for access 2, and every access
may write to memory. -/
def depCexInfo : InterleavedAccessInfo Nat :=
  { depsValid := true
    Dependences := [(2, [3])]
    mayWrite := fun _ => true }

end VecUtils

namespace LoopOptTutorial

/-- The `STATISTIC` counters of LoopOptTutorial.cpp that name the emitted
remarks. -/
inductive Stat where
  | LoopSplitted
  | LoopNotSplitted
  | NotInSimplifiedForm
  | UnsafeToClone
  | NotUniqueExitingBlock
  | NotUniqueExitBlock
  | NotInnerMostLoop
deriving DecidableEq

/-- The three remark kinds emitted through the optimization-remark emitter:
`reportInvalidCandidate` emits an analysis remark, `reportFailure` a missed
remark, `reportSuccess` a plain remark. -/
inductive Remark where
  | analysis (s : Stat)
  | missed (s : Stat)
  | passed (s : Stat)
deriving DecidableEq

/-- The loop facts consulted by `LoopSplit::isCandidate`, plus the outcome of
the `splitLoop` transformation abstracted as a boolean (its IR surgery is
outside this model; in the source it can only return `true`, and the claim is
about how `run` treats either outcome). -/
structure Loop where
  isLoopSimplifyForm : Bool
  isSafeToClone : Bool
  hasUniqueExitingBlock : Bool
  hasUniqueExitBlock : Bool
  subLoopsEmpty : Bool
  splitSucceeds : Bool

namespace LoopSplit

/-- Model of `LoopSplit::isCandidate` (LoopOptTutorial.cpp, lines 72-95):
the five-condition cascade, each failing condition emitting an
invalid-candidate analysis remark via `reportInvalidCandidate` and returning
false. -/
def isCandidate (L : Loop) : Bool × List Remark :=
  if !L.isLoopSimplifyForm then
    (false, [Remark.analysis Stat.NotInSimplifiedForm])
  else if !L.isSafeToClone then
    (false, [Remark.analysis Stat.UnsafeToClone])
  else if !L.hasUniqueExitingBlock then
    (false, [Remark.analysis Stat.NotUniqueExitingBlock])
  else if !L.hasUniqueExitBlock then
    (false, [Remark.analysis Stat.NotUniqueExitBlock])
  else if !L.subLoopsEmpty then
    (false, [Remark.analysis Stat.NotInnerMostLoop])
  else (true, [])

/-- Model of `LoopSplit::run` (LoopOptTutorial.cpp, lines 59-70): reject
non-candidates; otherwise attempt the split, emit a failure remark when it
fails, and fall through unconditionally to `reportSuccess` and `return
true`. -/
def run (L : Loop) : Bool × List Remark :=
  let c := isCandidate L
  if !c.1 then (false, c.2)
  else
    let failureRemarks :=
      if !L.splitSucceeds then [Remark.missed Stat.LoopNotSplitted] else []
    (true, c.2 ++ failureRemarks ++ [Remark.passed Stat.LoopSplitted])

end LoopSplit

end LoopOptTutorial

namespace VecUtils

theorem lookupKey_eq_none_iff {α : Type} (l : List (Int × α)) (k : Int) :
    lookupKey l k = none ↔ ∀ p ∈ l, p.1 ≠ k := by
  induction l with
  | nil => simp [lookupKey]
  | cons p rest ih =>
    by_cases h : p.1 = k
    · simp [lookupKey, h]
    · simp [lookupKey, h, ih]

theorem lookupKey_isSome_iff {α : Type} (l : List (Int × α)) (k : Int) :
    (lookupKey l k).isSome = true ↔ ∃ p ∈ l, p.1 = k := by
  induction l with
  | nil => simp [lookupKey]
  | cons p rest ih =>
    by_cases h : p.1 = k
    · simp [lookupKey, h]
    · simp [lookupKey, h, ih]

theorem lookupKey_eq_some_of_mem {α : Type} (l : List (Int × α)) (k : Int)
    (a : α) (hnd : (l.map Prod.fst).Nodup) (hmem : (k, a) ∈ l) :
    lookupKey l k = some a := by
  induction l with
  | nil => simp at hmem
  | cons p rest ih =>
    simp only [List.map_cons, List.nodup_cons] at hnd
    rcases List.mem_cons.mp hmem with h | h
    · simp [lookupKey, ← h]
    · have hk : p.1 ≠ k := by
        intro hc
        exact hnd.1 (hc ▸ List.mem_map.mpr ⟨(k, a), h, rfl⟩)
      simp [lookupKey, hk, ih hnd.2 h]

theorem lookupKey_mem {α : Type} (l : List (Int × α)) (k : Int) (a : α)
    (h : lookupKey l k = some a) : (k, a) ∈ l := by
  induction l with
  | nil => simp [lookupKey] at h
  | cons p rest ih =>
    by_cases hk : p.1 = k
    · simp only [lookupKey, hk, if_pos rfl] at h
      cases h
      exact List.mem_cons.mpr (Or.inl (by rw [← hk]))
    · simp only [lookupKey, hk, if_false] at h
      exact List.mem_cons.mpr (Or.inr (ih h))

theorem lookupVal_eq_none_iff {α : Type} [DecidableEq α] (l : List (Int × α))
    (a : α) : lookupVal l a = none ↔ ∀ p ∈ l, p.2 ≠ a := by
  induction l with
  | nil => simp [lookupVal]
  | cons p rest ih =>
    by_cases h : p.2 = a
    · simp [lookupVal, h]
    · simp [lookupVal, h, ih]

theorem lookupVal_eq_some {α : Type} [DecidableEq α] (l : List (Int × α))
    (a : α) (k : Int) (hex : ∃ p ∈ l, p.2 = a)
    (huniq : ∀ p ∈ l, p.2 = a → p.1 = k) : lookupVal l a = some k := by
  induction l with
  | nil => simp at hex
  | cons p rest ih =>
    by_cases h : p.2 = a
    · have := huniq p (List.mem_cons_self p rest) h
      simp [lookupVal, h, this]
    · have hex' : ∃ p ∈ rest, p.2 = a := by
        rcases hex with ⟨q, hq, hqa⟩
        rcases List.mem_cons.mp hq with rfl | hq'
        · exact absurd hqa h
        · exact ⟨q, hq', hqa⟩
      have huniq' : ∀ p ∈ rest, p.2 = a → p.1 = k := fun q hq hqa =>
        huniq q (List.mem_cons.mpr (Or.inr hq)) hqa
      simp [lookupVal, h, ih hex' huniq']

theorem checkedAdd_eq_some {a b k : Int} (h : checkedAdd a b = some k) :
    k = a + b ∧ int32Min ≤ k ∧ k ≤ int32Max := by
  unfold checkedAdd at h
  split_ifs at h with hr
  cases h
  exact ⟨rfl, hr.1, hr.2⟩

theorem checkedSub_eq_some {a b k : Int} (h : checkedSub a b = some k) :
    k = a - b ∧ int32Min ≤ k ∧ k ≤ int32Max := by
  unfold checkedSub at h
  split_ifs at h with hr
  cases h
  exact ⟨rfl, hr.1, hr.2⟩

theorem wrap32_of_range {z : Int} (hlo : int32Min ≤ z) (hhi : z ≤ int32Max) :
    wrap32 z = z := by
  unfold wrap32
  unfold int32Min at hlo
  unfold int32Max at hhi
  have h0 : (0 : Int) ≤ z + 2147483648 := by omega
  have h1 : z + 2147483648 < 4294967296 := by omega
  rw [Int.emod_eq_of_lt h0 h1]
  omega

theorem wrap32_of_high {z : Int} (hlo : int32Max < z)
    (hhi : z ≤ int32Max + 4294967296) : wrap32 z = z - 4294967296 := by
  unfold wrap32
  unfold int32Max at hlo hhi
  omega

theorem uToInt32_le (n : Nat) : uToInt32 n ≤ (n : Int) := by
  unfold uToInt32
  split_ifs with h
  · exact le_refl _
  · omega

namespace InterleaveGroup

theorem wf_mkLeaderGroup {α : Type} (Instr : α) (Stride : Int) (Align : Nat)
    (hfac : 1 < Stride.natAbs) (hlo : int32Min ≤ Stride)
    (hhi : Stride ≤ int32Max) : WF (mkLeaderGroup Instr Stride Align) := by
  unfold int32Min at hlo
  unfold int32Max at hhi
  unfold WF mkLeaderGroup
  dsimp only
  refine ⟨le_refl 0, by omega, by simp, by simp, ?_, ?_,
    ⟨(0, Instr), by simp, rfl⟩, hfac, by omega⟩
  · unfold int32Min
    omega
  · unfold int32Max
    omega

theorem insertMember_true_spec {α : Type} [DecidableEq α]
    (g : InterleaveGroup α) (Instr : α) (Index : Int) (NewAlign : Nat)
    (hSL : g.SmallestKey ≤ g.LargestKey)
    (hok : (insertMember g Instr Index NewAlign).2 = true) :
    ∃ Key, checkedAdd Index g.SmallestKey = some Key ∧
      lookupKey g.Members Key = none ∧
      (g.LargestKey < Key → Index < uToInt32 g.Factor) ∧
      (Key < g.SmallestKey → g.LargestKey - Key < (g.Factor : Int)) ∧
      (insertMember g Instr Index NewAlign).1 =
        { g with SmallestKey := min g.SmallestKey Key
                 LargestKey := max g.LargestKey Key
                 Align := min g.Align NewAlign
                 Members := g.Members ++ [(Key, Instr)] } := by
  unfold insertMember at hok ⊢
  cases hadd : checkedAdd Index g.SmallestKey with
  | none =>
    rw [hadd] at hok
    simp at hok
  | some Key =>
    rw [hadd] at hok
    obtain ⟨hKeyEq, hKlo, hKhi⟩ := checkedAdd_eq_some hadd
    by_cases hocc : (lookupKey g.Members Key).isSome = true
    · simp only [hocc, if_true] at hok
      simp at hok
    · have hnone : lookupKey g.Members Key = none := by
        cases hl : lookupKey g.Members Key with
        | none => rfl
        | some a => rw [hl] at hocc; simp at hocc
      simp only [hnone, Option.isSome_none, Bool.false_eq_true, if_false]
        at hok ⊢
      by_cases hKL : g.LargestKey < Key
      · by_cases hIdx : uToInt32 g.Factor ≤ Index
        · simp [hKL, hIdx] at hok
        · refine ⟨Key, rfl, hnone, fun _ => lt_of_not_le hIdx,
            fun hKS => by omega, ?_⟩
          rw [if_pos hKL, if_neg hIdx]
          rw [min_eq_left (by omega : g.SmallestKey ≤ Key),
              max_eq_right (le_of_lt hKL)]
      · by_cases hKS : Key < g.SmallestKey
        · rw [if_neg hKL, if_pos hKS] at hok ⊢
          cases hsub : checkedSub g.LargestKey Key with
          | none =>
            rw [hsub] at hok
            simp at hok
          | some d =>
            rw [hsub] at hok
            obtain ⟨hdEq, hdlo, hdhi⟩ := checkedSub_eq_some hsub
            by_cases hd : (g.Factor : Int) ≤ d
            · simp [hd] at hok
            · refine ⟨Key, rfl, hnone, fun hL => by omega,
                fun _ => by omega, ?_⟩
              rw [min_eq_right (le_of_lt hKS),
                  max_eq_left (by omega : Key ≤ g.LargestKey)]
              simp [hd]
        · rw [if_neg hKL, if_neg hKS] at hok ⊢
          refine ⟨Key, rfl, hnone, fun hL => absurd hL hKL,
            fun hS => absurd hS hKS, ?_⟩
          rw [min_eq_left (by omega : g.SmallestKey ≤ Key),
              max_eq_left (by omega : Key ≤ g.LargestKey)]

theorem wf_insertMember {α : Type} [DecidableEq α] (g : InterleaveGroup α)
    (Instr : α) (Index : Int) (NewAlign : Nat) (hwf : WF g)
    (hok : (insertMember g Instr Index NewAlign).2 = true) :
    WF (insertMember g Instr Index NewAlign).1 := by
  obtain ⟨h1, h2, h3, h4, h5, h6, h7, h8, h9⟩ := hwf
  obtain ⟨Key, hadd, hnone, hA, hB, heq⟩ :=
    insertMember_true_spec g Instr Index NewAlign h1 hok
  obtain ⟨hKeyEq, hKlo, hKhi⟩ := checkedAdd_eq_some hadd
  have hUF : uToInt32 g.Factor ≤ (g.Factor : Int) := uToInt32_le g.Factor
  rw [heq]
  unfold WF
  dsimp only
  refine ⟨by omega, ?_, ?_, ?_, ?_, ?_, ?_, h8, h9⟩
  · by_cases hKL : g.LargestKey < Key
    · have hx := hA hKL
      omega
    · by_cases hKS : Key < g.SmallestKey
      · have hx := hB hKS
        omega
      · omega
  · intro p hp
    rcases List.mem_append.mp hp with h | h
    · have hx := h3 p h
      exact ⟨by omega, by omega⟩
    · have hp2 : p = (Key, Instr) := by simpa using h
      rw [hp2]
      exact ⟨by omega, by omega⟩
  · rw [List.map_append]
    refine List.Nodup.append h4 (List.nodup_singleton Key) ?_
    intro a ha hb
    have hb2 : a = Key := by simpa using hb
    rw [hb2] at ha
    obtain ⟨p, hp, hpk⟩ := List.mem_map.mp ha
    exact (lookupKey_eq_none_iff g.Members Key).mp hnone p hp hpk
  · unfold int32Min at h5 hKlo ⊢
    omega
  · unfold int32Max at h6 hKhi ⊢
    omega
  · by_cases hKS : Key < g.SmallestKey
    · exact ⟨(Key, Instr), List.mem_append.mpr (Or.inr (by simp)),
        by omega⟩
    · obtain ⟨p, hp, hpS⟩ := h7
      exact ⟨p, List.mem_append.mpr (Or.inl hp), by omega⟩

theorem reachable_wf {α : Type} [DecidableEq α] {g : InterleaveGroup α}
    (h : Reachable g) : WF g := by
  induction h with
  | leader Instr Stride Align hfac hlo hhi =>
    exact wf_mkLeaderGroup Instr Stride Align hfac hlo hhi
  | insert g Instr Index NewAlign hg hok ih =>
    exact wf_insertMember g Instr Index NewAlign ih hok

theorem getMember_eq_some_iff {α : Type} (g : InterleaveGroup α) (hwf : WF g)
    (i : Nat) (hi : i < g.Factor) (m : α) :
    getMember g i = some m ↔ (g.SmallestKey + (i : Int), m) ∈ g.Members := by
  obtain ⟨h1, h2, h3, h4, h5, h6, h7, h8, h9⟩ := hwf
  unfold getMember
  by_cases hcase : g.SmallestKey + (i : Int) ≤ int32Max
  · have hw : wrap32 (g.SmallestKey + (i : Int)) = g.SmallestKey + (i : Int) := by
      refine wrap32_of_range ?_ hcase
      unfold int32Min at h5 ⊢
      omega
    rw [hw]
    constructor
    · exact lookupKey_mem _ _ _
    · exact lookupKey_eq_some_of_mem _ _ _ h4
  · have hzhi : g.SmallestKey + (i : Int) ≤ int32Max + 4294967296 := by
      unfold int32Max at h6 ⊢
      omega
    have hw : wrap32 (g.SmallestKey + (i : Int)) =
        g.SmallestKey + (i : Int) - 4294967296 :=
      wrap32_of_high (by omega) hzhi
    rw [hw]
    constructor
    · intro h
      exfalso
      have hmem := lookupKey_mem _ _ _ h
      have hbd := (h3 _ hmem).1
      omega
    · intro h
      exfalso
      have hbd := (h3 _ h).2
      unfold int32Max at h6 hcase
      omega

end InterleaveGroup

theorem range_flatMap_map {γ : Type} (f : Nat → Nat → γ) (a b : Nat) :
    (List.range a).flatMap (fun i => (List.range b).map (f i)) =
      (List.range (a * b)).map (fun p => f (p / b) (p % b)) := by
  induction a with
  | zero => simp
  | succ n ih =>
    rw [List.range_succ, List.flatMap_append, ih, Nat.succ_mul,
        List.range_add, List.map_append, List.map_map]
    congr 1
    have hfl : ([n] : List Nat).flatMap (fun i => (List.range b).map (f i)) =
        (List.range b).map (f n) := by
      simp
    rw [hfl]
    refine List.map_congr_left ?_
    intro x hx
    have hxb : x < b := List.mem_range.mp hx
    have hb : 0 < b := by omega
    simp only [Function.comp]
    have hdiv : (n * b + x) / b = n := by
      rw [Nat.mul_comm n b, Nat.mul_add_div hb, Nat.div_eq_of_lt hxb]
      omega
    have hmod : (n * b + x) % b = x := by
      rw [Nat.mul_comm n b]
      rw [Nat.mul_add_mod b n x]
      exact Nat.mod_eq_of_lt hxb
    rw [hdiv, hmod]

/-- Claim C2: for every group reachable through the leader constructor and
any sequence of successful `insertMember` calls, `LargestKey - SmallestKey <
Factor` holds, no two members share a key, and every member's index (its key
minus `SmallestKey`) lies in `[0, Factor)`. -/
theorem insertMember_reachable_invariants {α : Type} [DecidableEq α]
    (g : InterleaveGroup α) (hg : InterleaveGroup.Reachable g) :
    g.LargestKey - g.SmallestKey < (g.Factor : Int) ∧
    (g.Members.map Prod.fst).Nodup ∧
    (∀ p ∈ g.Members,
      0 ≤ p.1 - g.SmallestKey ∧ p.1 - g.SmallestKey < (g.Factor : Int)) := by
  obtain ⟨h1, h2, h3, h4, h5, h6, h7, h8, h9⟩ := InterleaveGroup.reachable_wf hg
  refine ⟨h2, h4, fun p hp => ?_⟩
  have hb := h3 p hp
  exact ⟨by omega, by omega⟩

/-- Witness for C2 on the concrete group built from stride 3 and one
successful insertion at relative index 2. -/
theorem insertMember_reachable_invariants_witness :
    ((InterleaveGroup.insertMember (InterleaveGroup.mkLeaderGroup (0 : Nat) 3 4)
        1 2 4).1.LargestKey -
      (InterleaveGroup.insertMember (InterleaveGroup.mkLeaderGroup (0 : Nat) 3 4)
        1 2 4).1.SmallestKey <
      ((InterleaveGroup.insertMember (InterleaveGroup.mkLeaderGroup (0 : Nat) 3 4)
        1 2 4).1.Factor : Int)) ∧
    (((InterleaveGroup.insertMember (InterleaveGroup.mkLeaderGroup (0 : Nat) 3 4)
        1 2 4).1.Members.map Prod.fst).Nodup) ∧
    (∀ p ∈ (InterleaveGroup.insertMember (InterleaveGroup.mkLeaderGroup (0 : Nat) 3 4)
        1 2 4).1.Members,
      0 ≤ p.1 - (InterleaveGroup.insertMember
        (InterleaveGroup.mkLeaderGroup (0 : Nat) 3 4) 1 2 4).1.SmallestKey ∧
      p.1 - (InterleaveGroup.insertMember
        (InterleaveGroup.mkLeaderGroup (0 : Nat) 3 4) 1 2 4).1.SmallestKey <
        ((InterleaveGroup.insertMember
          (InterleaveGroup.mkLeaderGroup (0 : Nat) 3 4) 1 2 4).1.Factor : Int)) :=
  insertMember_reachable_invariants _
    (InterleaveGroup.Reachable.insert _ 1 2 4
      (InterleaveGroup.Reachable.leader 0 3 4 (by decide) (by decide)
        (by decide))
      (by decide))

/-- Claim C3: on a well-formed group, `insertMember` returns false and leaves
the group unchanged whenever the checked addition `Index + SmallestKey`
overflows `int32_t`, or a member already occupies the resulting key, or
accepting the key would make `LargestKey - SmallestKey ≥ Factor` (including
the case in which the checked subtraction `LargestKey - Key` overflows while
extending the lower bound); overflow never wraps silently. -/
theorem insertMember_rejects_no_mutation {α : Type} [DecidableEq α]
    (g : InterleaveGroup α) (Instr : α) (Index : Int) (NewAlign : Nat)
    (hwf : InterleaveGroup.WF g)
    (hrej : checkedAdd Index g.SmallestKey = none ∨
      ∃ Key, checkedAdd Index g.SmallestKey = some Key ∧
        ((lookupKey g.Members Key).isSome = true ∨
         (g.Factor : Int) ≤ max g.LargestKey Key - min g.SmallestKey Key ∨
         (Key < g.SmallestKey ∧ checkedSub g.LargestKey Key = none))) :
    InterleaveGroup.insertMember g Instr Index NewAlign = (g, false) := by
  obtain ⟨h1, h2, h3, h4, h5, h6, h7, h8, h9⟩ := hwf
  have hUF : uToInt32 g.Factor ≤ (g.Factor : Int) := uToInt32_le g.Factor
  unfold InterleaveGroup.insertMember
  rcases hrej with hadd | ⟨Key, hadd, hcond⟩
  · rw [hadd]
  · rw [hadd]
    obtain ⟨hKeyEq, hKlo, hKhi⟩ := checkedAdd_eq_some hadd
    by_cases hocc : (lookupKey g.Members Key).isSome = true
    · simp [hocc]
    · have hnone : lookupKey g.Members Key = none := by
        cases hl : lookupKey g.Members Key with
        | none => rfl
        | some a => rw [hl] at hocc; simp at hocc
      rcases hcond with hcond | hcond | hcond
      · exact absurd hcond hocc
      · simp only [hnone, Option.isSome_none, Bool.false_eq_true, if_false]
        by_cases hKL : g.LargestKey < Key
        · rw [if_pos hKL, if_pos (by omega : uToInt32 g.Factor ≤ Index)]
        · rw [if_neg hKL]
          by_cases hKS : Key < g.SmallestKey
          · rw [if_pos hKS]
            cases hsub : checkedSub g.LargestKey Key with
            | none => rfl
            | some d =>
              obtain ⟨hdEq, hdlo, hdhi⟩ := checkedSub_eq_some hsub
              have hfd : (g.Factor : Int) ≤ d := by omega
              simp [hfd]
          · exfalso
            omega
      · simp only [hnone, Option.isSome_none, Bool.false_eq_true, if_false]
        rw [if_neg (by omega : ¬g.LargestKey < Key), if_pos hcond.1,
          hcond.2]

/-- Witness for C3: inserting at relative index 5 into a fresh stride-3 group
is rejected because the resulting key distance reaches the factor. -/
theorem insertMember_rejects_no_mutation_witness :
    InterleaveGroup.insertMember (InterleaveGroup.mkLeaderGroup (0 : Nat) 3 4)
        1 5 4 =
      (InterleaveGroup.mkLeaderGroup (0 : Nat) 3 4, false) :=
  insertMember_rejects_no_mutation _ 1 5 4 (by decide)
    (Or.inr ⟨5, by decide, Or.inr (Or.inl (by decide))⟩)

/-- Claim C9: in every group built by the leader constructor (which places
the initial instruction at key 0) and grown by `insertMember`, the slot at
index 0 is always occupied: `getMember 0` never returns `nullptr`. -/
theorem getMember_zero_isSome {α : Type} [DecidableEq α]
    (g : InterleaveGroup α) (hg : InterleaveGroup.Reachable g) :
    (InterleaveGroup.getMember g 0).isSome = true := by
  obtain ⟨h1, h2, h3, h4, h5, h6, h7, h8, h9⟩ := InterleaveGroup.reachable_wf hg
  unfold InterleaveGroup.getMember
  have hz : wrap32 (g.SmallestKey + ((0 : Nat) : Int)) = g.SmallestKey := by
    rw [Nat.cast_zero, add_zero]
    exact wrap32_of_range h5 (le_trans h1 h6)
  rw [hz, lookupKey_isSome_iff]
  exact h7

/-- Witness for C9 on the concrete group built from stride 3 and one
successful insertion at relative index minus one (a new leader). -/
theorem getMember_zero_isSome_witness :
    (InterleaveGroup.getMember
      (InterleaveGroup.insertMember (InterleaveGroup.mkLeaderGroup (0 : Nat) 3 4)
        1 (-1) 4).1 0).isSome = true :=
  getMember_zero_isSome _
    (InterleaveGroup.Reachable.insert _ 1 (-1) 4
      (InterleaveGroup.Reachable.leader 0 3 4 (by decide) (by decide)
        (by decide))
      (by decide))

/-- Claim C5: on a well-formed group, `requiresScalarEpilogue()` returns true
iff the slot at index `Factor - 1` is unfilled, under the precondition (the
release-mode `assert`s of the source) that a group with such a gap holds only
non-writing members and is not reversed. -/
theorem requiresScalarEpilogue_iff_gap_at_top {α : Type} [DecidableEq α]
    (g : InterleaveGroup α) (mayWrite : α → Bool)
    (hwf : InterleaveGroup.WF g)
    (_hpre : InterleaveGroup.requiresScalarEpilogue g = true →
      (∀ p ∈ g.Members, mayWrite p.2 = false) ∧ g.Reverse = false) :
    (InterleaveGroup.requiresScalarEpilogue g = true ↔
      ∀ m : α, (g.SmallestKey + ((g.Factor - 1 : Nat) : Int), m) ∉ g.Members) := by
  have h8 : 1 < g.Factor := hwf.2.2.2.2.2.2.2.1
  have hi : g.Factor - 1 < g.Factor := by omega
  unfold InterleaveGroup.requiresScalarEpilogue
  constructor
  · intro h m hm
    have hgm := (InterleaveGroup.getMember_eq_some_iff g hwf (g.Factor - 1) hi m).mpr hm
    rw [hgm] at h
    simp at h
  · intro h
    cases hgm : InterleaveGroup.getMember g (g.Factor - 1) with
    | none => simp
    | some m =>
      exact absurd
        ((InterleaveGroup.getMember_eq_some_iff g hwf _ hi m).mp hgm) (h m)

/-- Witness for C5 on a fresh stride-3 group, whose only member sits at slot
0, so slot 2 is a gap. -/
theorem requiresScalarEpilogue_iff_gap_at_top_witness :
    InterleaveGroup.requiresScalarEpilogue
        (InterleaveGroup.mkLeaderGroup (0 : Nat) 3 4) = true ↔
      ∀ m : Nat,
        ((InterleaveGroup.mkLeaderGroup (0 : Nat) 3 4).SmallestKey +
            (((InterleaveGroup.mkLeaderGroup (0 : Nat) 3 4).Factor - 1 : Nat) : Int),
          m) ∉ (InterleaveGroup.mkLeaderGroup (0 : Nat) 3 4).Members :=
  requiresScalarEpilogue_iff_gap_at_top _ (fun _ => false) (by decide)
    (by decide)

/-- Claim C6: on a well-formed group whose members are pairwise-distinct
instructions, `getIndex (getMember i) = i` for every filled slot `i` below
the factor, and `getIndex` on a non-member reaches `llvm_unreachable`
(modelled as `none`) instead of returning an index. -/
theorem getIndex_getMember_consistency {α : Type} [DecidableEq α]
    (g : InterleaveGroup α) (hwf : InterleaveGroup.WF g)
    (hinj : ∀ p ∈ g.Members, ∀ q ∈ g.Members, p.2 = q.2 → p.1 = q.1) :
    (∀ i : Nat, i < g.Factor → ∀ m : α,
      InterleaveGroup.getMember g i = some m →
      InterleaveGroup.getIndex g m = some (i : Int)) ∧
    (∀ Instr : α, (∀ p ∈ g.Members, p.2 ≠ Instr) →
      InterleaveGroup.getIndex g Instr = none) := by
  constructor
  · intro i hi m hgm
    have hmem := (InterleaveGroup.getMember_eq_some_iff g hwf i hi m).mp hgm
    unfold InterleaveGroup.getIndex
    have hlv : lookupVal g.Members m = some (g.SmallestKey + (i : Int)) := by
      refine lookupVal_eq_some _ _ _ ⟨_, hmem, rfl⟩ ?_
      intro p hp hpm
      exact hinj p hp _ hmem hpm
    rw [hlv]
    simp
  · intro Instr hni
    unfold InterleaveGroup.getIndex
    rw [(lookupVal_eq_none_iff _ _).mpr hni]
    rfl

/-- Witness for C6 on the two-member group with slots 0 and 3 of factor 4:
the member at slot 3 maps back to index 3, and the non-member 7 yields the
fatal-error outcome. -/
theorem getIndex_getMember_consistency_witness :
    InterleaveGroup.getIndex gapExampleGroup 1 = some ((3 : Nat) : Int) ∧
    InterleaveGroup.getIndex gapExampleGroup 7 = none :=
  ⟨(getIndex_getMember_consistency gapExampleGroup (by decide) (by decide)).1
      3 (by decide) 1 (by decide),
   (getIndex_getMember_consistency gapExampleGroup (by decide) (by decide)).2
      7 (by decide)⟩

/-- Claim C7: the gap mask has length `Factor * VF`, its entry at position
`slot + Factor * lane` flags precisely whether the group has a member at
`slot`, and the group with members exactly at slots 0 and 3 of factor 4 at
width 2 yields `<1,0,0,1,1,0,0,1>`. -/
theorem createBitMaskForGaps_spec {α : Type} (g : InterleaveGroup α)
    (VF : Nat) :
    (createBitMaskForGaps g VF).length = g.Factor * VF ∧
    (∀ slot lane : Nat, slot < g.Factor → lane < VF →
      (createBitMaskForGaps g VF)[slot + g.Factor * lane]? =
        some (InterleaveGroup.getMember g slot).isSome) ∧
    createBitMaskForGaps gapExampleGroup 2 =
      [true, false, false, true, true, false, false, true] := by
  have heq : createBitMaskForGaps g VF =
      (List.range (VF * g.Factor)).map
        (fun p => (InterleaveGroup.getMember g (p % g.Factor)).isSome) :=
    range_flatMap_map
      (fun _lane slot => (InterleaveGroup.getMember g slot).isSome)
      VF g.Factor
  refine ⟨?_, ?_, by decide⟩
  · rw [heq]
    simp [Nat.mul_comm]
  · intro slot lane hs hl
    have hlt : slot + g.Factor * lane < VF * g.Factor := by
      have h1 : slot + g.Factor * lane < g.Factor * (lane + 1) := by
        have : g.Factor * (lane + 1) = g.Factor * lane + g.Factor := by ring
        omega
      have h2 : g.Factor * (lane + 1) ≤ g.Factor * VF :=
        Nat.mul_le_mul_left _ hl
      rw [Nat.mul_comm VF g.Factor]
      omega
    rw [heq, List.getElem?_map, List.getElem?_range hlt]
    have hmod : (slot + g.Factor * lane) % g.Factor = slot := by
      rw [Nat.add_mul_mod_self_left]
      exact Nat.mod_eq_of_lt hs
    simp [hmod]

/-- Witness for C7 evaluating the position formula on the example group at
slot 3, lane 1 and width 2. -/
theorem createBitMaskForGaps_spec_witness :
    (createBitMaskForGaps gapExampleGroup 2)[3 + gapExampleGroup.Factor * 1]? =
      some (InterleaveGroup.getMember gapExampleGroup 3).isSome :=
  (createBitMaskForGaps_spec gapExampleGroup 2).2.1 3 1 (by decide) (by decide)

/-- Claim C8: the interleave mask has length `NumVecs * VF`, its value at
position `i` is `(i mod NumVecs) * VF + i / NumVecs`, and for `VF = 4`,
`NumVecs = 2` it is `<0,4,1,5,2,6,3,7>`. -/
theorem createInterleaveMask_spec (VF NumVecs : Nat) :
    (createInterleaveMask VF NumVecs).length = NumVecs * VF ∧
    (∀ i : Nat, i < NumVecs * VF →
      (createInterleaveMask VF NumVecs)[i]? =
        some ((i % NumVecs) * VF + i / NumVecs)) ∧
    createInterleaveMask 4 2 = [0, 4, 1, 5, 2, 6, 3, 7] := by
  have heq : createInterleaveMask VF NumVecs =
      (List.range (VF * NumVecs)).map
        (fun p => (p % NumVecs) * VF + p / NumVecs) :=
    range_flatMap_map (fun i j => j * VF + i) VF NumVecs
  refine ⟨?_, ?_, by decide⟩
  · rw [heq]
    simp [Nat.mul_comm]
  · intro i hi
    have hlt : i < VF * NumVecs := by
      rw [Nat.mul_comm VF NumVecs]
      exact hi
    rw [heq, List.getElem?_map, List.getElem?_range hlt]
    rfl

/-- Witness for C8 evaluating the value formula at position 5 of the width-4,
two-vector mask. -/
theorem createInterleaveMask_spec_witness :
    (createInterleaveMask 4 2)[5]? = some ((5 % 2) * 4 + 5 / 2) :=
  (createInterleaveMask_spec 4 2).2.1 5 (by decide)

/-- Claim C4: whenever the source access `A` may not write to memory, the
reordering legality check returns true immediately, regardless of stride
descriptors and of the dependence information. -/
theorem canReorder_readonly_source_legal {β : Type} [DecidableEq β]
    (M : InterleavedAccessInfo β) (A B : β × StrideDescriptor)
    (h : M.mayWrite A.1 = false) :
    canReorderMemAccessesForInterleavedGroups M A B = true := by
  unfold canReorderMemAccessesForInterleavedGroups
  simp [h]

/-- Witness for C4: a read-only source with invalid dependence data and a
cached dependence from 0 to 1 is still reorderable. -/
theorem canReorder_readonly_source_legal_witness :
    canReorderMemAccessesForInterleavedGroups
        (InterleavedAccessInfo.mk false [(0, [1])] (fun _ => false))
        ((0 : Nat), StrideDescriptor.mk 2 4 4) (1, StrideDescriptor.mk 2 4 4) =
      true :=
  canReorder_readonly_source_legal _ _ _ (by decide)

/-- Claim C1 counterexample: dependence information has been computed and is
valid, the cache has no entry for the writing, strided source access 0, yet
the check ACCEPTS the reordering (returns true), refuting the claimed
conservative rejection for a missing cache entry. -/
theorem canReorder_missing_entry_cex :
    depCexInfo.depsValid = true ∧
    lookupDep depCexInfo.Dependences 0 = none ∧
    depCexInfo.mayWrite 0 = true ∧
    isStrided (2 : Int) = true ∧
    canReorderMemAccessesForInterleavedGroups depCexInfo
        ((0 : Nat), StrideDescriptor.mk 2 4 4) (1, StrideDescriptor.mk 2 4 4) =
      true := by
  decide

/-- Claim C1 (amended): once dependence information is valid, the absence of
a cached entry for the source access means the source has no known dependent
sinks and the check accepts the reordering; the conservative rejection
applies when dependence information is unavailable as a whole
(`areDependencesValid()` false), for a writing source of a strided pair. -/
theorem canReorder_dependence_cache_semantics {β : Type} [DecidableEq β]
    (M : InterleavedAccessInfo β) (A B : β × StrideDescriptor)
    (hwrite : M.mayWrite A.1 = true)
    (hstrided : isStrided A.2.Stride = true ∨ isStrided B.2.Stride = true) :
    (M.depsValid = true → lookupDep M.Dependences A.1 = none →
      canReorderMemAccessesForInterleavedGroups M A B = true) ∧
    (M.depsValid = false →
      canReorderMemAccessesForInterleavedGroups M A B = false) := by
  unfold canReorderMemAccessesForInterleavedGroups
  constructor
  · intro hv hn
    rcases hstrided with h | h <;> simp [hwrite, hv, hn, h]
  · intro hv
    rcases hstrided with h | h <;> simp [hwrite, hv, h]

/-- Witness for the amended C1: with valid dependence data and an empty
cache entry for access 0 the reordering is legal; with invalid dependence
data the same pair is rejected. -/
theorem canReorder_dependence_cache_semantics_witness :
    canReorderMemAccessesForInterleavedGroups depCexInfo
        ((0 : Nat), StrideDescriptor.mk 2 4 4) (1, StrideDescriptor.mk 2 4 4) =
      true ∧
    canReorderMemAccessesForInterleavedGroups
        (InterleavedAccessInfo.mk false [] (fun _ => true))
        ((0 : Nat), StrideDescriptor.mk 2 4 4) (1, StrideDescriptor.mk 2 4 4) =
      false :=
  ⟨(canReorder_dependence_cache_semantics depCexInfo _ _ (by decide)
      (Or.inl (by decide))).1 (by decide) (by decide),
   (canReorder_dependence_cache_semantics _ _ _ (by decide)
      (Or.inl (by decide))).2 (by decide)⟩

end VecUtils

namespace LoopOptTutorial

/-- Claim C10: `LoopSplit::run` returns false exactly when `isCandidate`
rejects the loop; for every candidate loop it returns true and emits the
success remark, even on the path where `splitLoop` reports failure and a
failure remark has already been emitted (the failure branch does not return
early). -/
theorem run_reports_success_for_candidates (L : Loop) :
    ((LoopSplit.run L).1 = false ↔ (LoopSplit.isCandidate L).1 = false) ∧
    ((LoopSplit.isCandidate L).1 = true →
      (LoopSplit.run L).1 = true ∧
      Remark.passed Stat.LoopSplitted ∈ (LoopSplit.run L).2 ∧
      (L.splitSucceeds = false →
        Remark.missed Stat.LoopNotSplitted ∈ (LoopSplit.run L).2)) := by
  rcases L with ⟨a, b, c, d, e, f⟩
  cases a <;> cases b <;> cases c <;> cases d <;> cases e <;> cases f <;>
    decide

/-- Witness for C10: a candidate loop whose split fails still reports
success, returns true, and carries the failure remark. -/
theorem run_reports_success_for_candidates_witness :
    (LoopSplit.run (Loop.mk true true true true true false)).1 = true ∧
    Remark.missed Stat.LoopNotSplitted ∈
      (LoopSplit.run (Loop.mk true true true true true false)).2 := by
  have h := run_reports_success_for_candidates
    (Loop.mk true true true true true false)
  exact ⟨(h.2 (by decide)).1, (h.2 (by decide)).2.2 (by decide)⟩

end LoopOptTutorial
